import Mathlib

/-!
Verification of the `fdc` (Find Dead Code) tool, a shallow embedding of
`src/main.rs`.  Texts (file contents) and filesystem paths are modelled as
`List Char`; the filesystem is a function from paths to optional contents
(`none` models an unreadable file).  The catalog (`HashMap<PathBuf, FileInfo>`
plus the `php_files` vector) is modelled as a list of `FileInfo` records in
iteration order together with a list of referrer paths.  The three comment
regexes are embedded as executable scanners implementing the leftmost,
non-overlapping match semantics of `Regex::replace_all` / `captures_iter`
for the concrete patterns in the source.
-/

namespace Fdc

/-- Paths are opaque character strings (embedding of `PathBuf`). -/
abbrev FPath := List Char

/-- File contents as character strings. -/
abbrev Text := List Char

/-- Embedding of `enum FileType` from `src/main.rs`. -/
inductive FileType where
  | Php
  | JavaScript
  | Css
deriving DecidableEq, Repr

/-- Embedding of `struct FileInfo` from `src/main.rs`. -/
structure FileInfo where
  path : FPath
  file_type : FileType
  referenced_by : List FPath
  referenced_in_comments : List FPath
deriving DecidableEq, Repr

/-- Model of `Path::file_name()` for the paths this tool sees (paths of
regular files produced by the directory walk): the component after the last
separator, `none` for empty, `.` and `..` results. -/
def file_name (p : FPath) : Option (List Char) :=
  let base := (p.reverse.takeWhile (fun c => c ≠ '/')).reverse
  if base = [] ∨ base = ['.'] ∨ base = ['.', '.'] then none else some base

/-- Embedding of Rust `str::contains` (literal substring containment):
`strContains hay needle` is true when `needle` occurs in `hay`. -/
def strContains (hay needle : Text) : Bool :=
  match hay with
  | [] => needle.isEmpty
  | c :: t => needle.isPrefixOf (c :: t) || strContains t needle

/-- Drop the rest of the current line (everything before the next newline),
used by the `//.*` and `#.*` scanners; `.` in the Rust regexes does not match
a newline. -/
def dropLine (l : List Char) : List Char := l.dropWhile (fun c => c ≠ '\n')

/-- Take the rest of the current line (everything before the next newline). -/
def takeLine (l : List Char) : List Char := l.takeWhile (fun c => c ≠ '\n')

/-- Scanner for the `//.*` regex: returns the text with all matches removed
(the `replace_all` result) and the list of matched spans in match order
(the `captures_iter` result).  Fuel-indexed for structural recursion; fuel
equal to the length of the input is always sufficient because every step
consumes at least one character. -/
def scanSlashAux : Nat → List Char → List Char × List (List Char)
  | 0, s => (s, [])
  | _ + 1, [] => ([], [])
  | fuel + 1, '/' :: '/' :: rest =>
    let out := scanSlashAux fuel (dropLine rest)
    (out.1, ('/' :: '/' :: takeLine rest) :: out.2)
  | fuel + 1, c :: rest =>
    let out := scanSlashAux fuel rest
    (c :: out.1, out.2)

/-- Scanner for the `#.*` regex, same conventions as `scanSlashAux`. -/
def scanHashAux : Nat → List Char → List Char × List (List Char)
  | 0, s => (s, [])
  | _ + 1, [] => ([], [])
  | fuel + 1, '#' :: rest =>
    let out := scanHashAux fuel (dropLine rest)
    (out.1, ('#' :: takeLine rest) :: out.2)
  | fuel + 1, c :: rest =>
    let out := scanHashAux fuel rest
    (c :: out.1, out.2)

/-- Locate the nearest `*/` (the non-greedy tail of `(?s)/\*.*?\*/`):
returns the consumed span (ending with `*/`) and the remaining input, or
`none` when no `*/` occurs. -/
def findClose : List Char → Option (List Char × List Char)
  | [] => none
  | '*' :: '/' :: rest => some (['*', '/'], rest)
  | c :: rest =>
    match findClose rest with
    | some (m, r) => some (c :: m, r)
    | none => none

/-- Scanner for the `(?s)/\*.*?\*/` regex.  When a `/*` has no closing `*/`
anywhere after it, no match can start at or after it, so the rest of the
input is kept verbatim. -/
def scanBlockAux : Nat → List Char → List Char × List (List Char)
  | 0, s => (s, [])
  | _ + 1, [] => ([], [])
  | fuel + 1, '/' :: '*' :: rest =>
    (match findClose rest with
     | some (m, r) =>
       let out := scanBlockAux fuel r
       (out.1, ('/' :: '*' :: m) :: out.2)
     | none => ('/' :: '*' :: rest, []))
  | fuel + 1, c :: rest =>
    let out := scanBlockAux fuel rest
    (c :: out.1, out.2)

/-- `single_line_comment.replace_all(s, "")`. -/
def removeLine (s : Text) : Text := (scanSlashAux s.length s).1

/-- Matched spans of `//.*` over `s`, in match order. -/
def matchesLine (s : Text) : List Text := (scanSlashAux s.length s).2

/-- `hash_comment.replace_all(s, "")`. -/
def removeHash (s : Text) : Text := (scanHashAux s.length s).1

/-- Matched spans of `#.*` over `s`, in match order. -/
def matchesHash (s : Text) : List Text := (scanHashAux s.length s).2

/-- `multi_line_comment.replace_all(s, "")`. -/
def removeBlock (s : Text) : Text := (scanBlockAux s.length s).1

/-- Matched spans of `(?s)/\*.*?\*/` over `s`, in match order. -/
def matchesBlock (s : Text) : List Text := (scanBlockAux s.length s).2

/-- Concatenate spans, each followed by a newline, mirroring the
`push_str(&cap[0]); push('\n')` loop of `find_references`. -/
def concatNl : List Text → Text
  | [] => []
  | m :: ms => m ++ '\n' :: concatNl ms

/-- The `clean_content` value computed in `find_references` (lines 130-132):
block comments removed first, then line comments, then hash comments. -/
def codeOnly (s : Text) : Text := removeHash (removeLine (removeBlock s))

/-- The `comment_content` value computed in `find_references` (lines 134-147):
concatenation of every matched span of the three comment patterns applied to
the original text, one per line, line-comment matches first, then block,
then hash. -/
def commentOnly (s : Text) : Text :=
  concatNl (matchesLine s ++ matchesBlock s ++ matchesHash s)

/-- The per-file comment-separation step of `find_references`
(lines 129-147), producing `(clean_content, comment_content)`. -/
def stripComments (s : Text) : Text × Text := (codeOnly s, commentOnly s)

/-- The per-target update performed in the inner loop of `find_references`
(lines 150-165) while scanning referrer `phpFile` with the given
code-only and comment-only texts. -/
def updateRecord (phpFile : FPath) (clean comments : Text) (fi : FileInfo) :
    FileInfo :=
  match file_name fi.path with
  | none => fi
  | some name =>
    if fi.path = phpFile then fi
    else if strContains clean name then
      { fi with referenced_by := fi.referenced_by ++ [phpFile] }
    else if strContains comments name then
      { fi with referenced_in_comments := fi.referenced_in_comments ++ [phpFile] }
    else fi

/-- One referrer's pass over the whole catalog in `find_references`. -/
def processPhp (phpFile : FPath) (content : Text) (files : List FileInfo) :
    List FileInfo :=
  files.map (updateRecord phpFile (stripComments content).1 (stripComments content).2)

/-- Embedding of `DeadCodeFinder::find_references` (lines 111-169).  The
referrers in `php_files` are processed in order; `fs::read_to_string` failure
(modelled as `contents p = none`) propagates immediately via `?`, carrying
the offending path as the error value. -/
def find_references (contents : FPath → Option Text) :
    List FPath → List FileInfo → Except FPath (List FileInfo)
  | [], files => .ok files
  | p :: ps, files =>
    match contents p with
    | none => .error p
    | some content => find_references contents ps (processPhp p content files)

/-- ASCII fragment of the Rust regex `\s` character class (the contents this
tool inspects are source files; the non-ASCII whitespace code points play no
role in any claim). -/
def isWs (c : Char) : Bool :=
  c = ' ' || c = '\t' || c = '\n' || c = '\r' ||
  c = Char.ofNat 11 || c = Char.ofNat 12

/-- The literal tail of the plugin-header regex. -/
def pluginChars : List Char := "Plugin Name:".toList

/-- Match of `\s*\*\s*Plugin Name:` at one anchor position: skip whitespace,
require a literal `*`, skip whitespace, require the literal text. -/
def headerAt (s : List Char) : Bool :=
  match s.dropWhile isWs with
  | [] => false
  | c :: rest => c = '*' && pluginChars.isPrefixOf (rest.dropWhile isWs)

/-- Anchors after a newline: `(?m)^` matches after every `'\n'`. -/
def headerMatchAux : List Char → Bool
  | [] => false
  | c :: rest => (c = '\n' && headerAt rest) || headerMatchAux rest

/-- Embedding of `plugin_header_pattern.is_match` for
`(?m)^\s*\*\s*Plugin Name:`: some line-start position (the start of the
text or any position after a newline) begins a match. -/
def headerMatch (s : List Char) : Bool := headerAt s || headerMatchAux s

/-- Embedding of `DeadCodeFinder::find_root_files` (lines 203-222) over the
catalog in iteration order: the first PHP file whose content is readable and
matches the header pattern is returned alone (the loop `return`s on the
first hit); unreadable files are skipped. -/
def find_root_files (contents : FPath → Option Text) :
    List FileInfo → List FPath
  | [] => []
  | fi :: rest =>
    if fi.file_type = FileType.Php then
      match contents fi.path with
      | some content =>
        if headerMatch content then [fi.path]
        else find_root_files contents rest
      | none => find_root_files contents rest
    else find_root_files contents rest

/-- The classification loop of `DeadCodeFinder::find_dead_files`
(lines 229-244), parameterised by the root set. -/
def classifyList (roots : List FPath) : List FileInfo → List FileInfo × List FileInfo
  | [] => ([], [])
  | fi :: rest =>
    let out := classifyList roots rest
    if fi.path ∈ roots then out
    else if !fi.referenced_by.isEmpty then out
    else if !fi.referenced_in_comments.isEmpty then (out.1, fi :: out.2)
    else (fi :: out.1, out.2)

/-- Embedding of `DeadCodeFinder::find_dead_files` (lines 224-247):
computes the root set, then classifies; returns
`(dead_files, commented_dead_files)`. -/
def find_dead_files (contents : FPath → Option Text) (files : List FileInfo) :
    List FileInfo × List FileInfo :=
  classifyList (find_root_files contents files) files

/-- Embedding of `DeadCodeFinder::delete_files` (lines 338-344): the paths
passed to `fs::remove_file`, in order. -/
def delete_files (files : List FileInfo) : List FPath :=
  files.map (fun fi => fi.path)

/-- The delete step of `main` (lines 374-388): with `--delete` set and at
least one file in either output list, `delete_files` receives exactly the
`dead_files` list; otherwise nothing is passed to removal. -/
def deletePhase (deleteFlag : Bool) (contents : FPath → Option Text)
    (files : List FileInfo) : List FPath :=
  if deleteFlag && (!(find_dead_files contents files).1.isEmpty ||
      !(find_dead_files contents files).2.isEmpty)
  then delete_files (find_dead_files contents files).1
  else []

/-- The analysis pipeline of `main` (lines 368-370): reference scan, then
classification; a scan error aborts the run. -/
def runPipeline (contents : FPath → Option Text) (files : List FileInfo)
    (php_files : List FPath) : Except FPath (List FileInfo × List FileInfo) :=
  match find_references contents php_files files with
  | .error e => .error e
  | .ok scanned => .ok (find_dead_files contents scanned)

/-! ## Helper lemmas -/

/-- `m` occurs verbatim as a contiguous substring of `s`. -/
def SubstringOf (m s : Text) : Prop := ∃ u v, s = u ++ m ++ v

theorem substringOf_concatNl (m : Text) (L : List Text) (h : m ∈ L) :
    SubstringOf m (concatNl L) := by
  induction L with
  | nil => cases h
  | cons a tl ih =>
    rcases List.mem_cons.mp h with rfl | h
    · exact ⟨[], '\n' :: concatNl tl, by simp [concatNl]⟩
    · obtain ⟨u, v, heq⟩ := ih h
      exact ⟨a ++ '\n' :: u, v, by simp [concatNl, heq]⟩

theorem isPrefixOf_iff_ex (l₁ l₂ : List Char) :
    l₁.isPrefixOf l₂ = true ↔ ∃ t, l₂ = l₁ ++ t := by
  induction l₁ generalizing l₂ with
  | nil => simp [List.isPrefixOf]
  | cons a l ih =>
    cases l₂ with
    | nil => simp [List.isPrefixOf]
    | cons b t =>
      simp only [List.isPrefixOf, Bool.and_eq_true, beq_iff_eq, ih,
        List.cons_append, List.cons.injEq]
      constructor
      · rintro ⟨rfl, u, rfl⟩; exact ⟨u, rfl, rfl⟩
      · rintro ⟨u, rfl, rfl⟩; exact ⟨rfl, u, rfl⟩

theorem dropWhile_append_all (p : Char → Bool) (l₁ l₂ : List Char)
    (h : ∀ c ∈ l₁, p c = true) :
    (l₁ ++ l₂).dropWhile p = l₂.dropWhile p := by
  induction l₁ with
  | nil => rfl
  | cons a l ih =>
    have ha : p a = true := h a (List.mem_cons.mpr (Or.inl rfl))
    simp only [List.cons_append, List.dropWhile_cons, ha, if_true]
    exact ih (fun c hc => h c (List.mem_cons.mpr (Or.inr hc)))

theorem dropWhile_cons_neg (p : Char → Bool) (a : Char) (l : List Char)
    (h : p a = false) : List.dropWhile p (a :: l) = a :: l := by
  simp [List.dropWhile_cons, h]

/-- `w` sits at the start of a line: it is empty or ends with a newline. -/
def AtLineStart (pre : List Char) : Prop := pre = [] ∨ ∃ q, pre = q ++ ['\n']

theorem headerAt_iff (s : List Char) :
    headerAt s = true ↔
      ∃ w1 w2 post, s = w1 ++ '*' :: (w2 ++ (pluginChars ++ post)) ∧
        (∀ c ∈ w1, isWs c = true) ∧ (∀ c ∈ w2, isWs c = true) := by
  constructor
  · intro h
    unfold headerAt at h
    cases hd : s.dropWhile isWs with
    | nil => rw [hd] at h; simp at h
    | cons c rest =>
      rw [hd] at h
      simp only [Bool.and_eq_true, decide_eq_true_eq] at h
      obtain ⟨hc, hp⟩ := h
      obtain ⟨post, hpost⟩ := (isPrefixOf_iff_ex pluginChars _).mp hp
      refine ⟨s.takeWhile isWs, rest.takeWhile isWs, post, ?_, ?_, ?_⟩
      · conv_lhs => rw [← List.takeWhile_append_dropWhile isWs s]
        rw [hd, hc]
        have hrest : rest = rest.takeWhile isWs ++ (pluginChars ++ post) := by
          conv_lhs => rw [← List.takeWhile_append_dropWhile isWs rest]
          rw [hpost]
        rw [← hrest]
      · exact fun c hc => List.mem_takeWhile_imp hc
      · exact fun c hc => List.mem_takeWhile_imp hc
  · rintro ⟨w1, w2, post, rfl, h1, h2⟩
    unfold headerAt
    rw [dropWhile_append_all isWs w1 _ h1,
      dropWhile_cons_neg isWs '*' _ (by decide)]
    simp only [Bool.and_eq_true, decide_eq_true_eq]
    refine ⟨by trivial, ?_⟩
    rw [dropWhile_append_all isWs w2 _ h2]
    have hP : pluginChars ++ post = 'P' :: ("lugin Name:".toList ++ post) := rfl
    rw [hP, dropWhile_cons_neg isWs 'P' _ (by decide), ← hP]
    exact (isPrefixOf_iff_ex pluginChars _).mpr ⟨post, rfl⟩

theorem headerMatchAux_iff (s : List Char) :
    headerMatchAux s = true ↔
      ∃ q rest, s = q ++ '\n' :: rest ∧ headerAt rest = true := by
  induction s with
  | nil =>
    simp only [headerMatchAux, Bool.false_eq_true, false_iff]
    rintro ⟨q, rest, heq, -⟩
    exact absurd heq (by simp)
  | cons c s' ih =>
    simp only [headerMatchAux, Bool.or_eq_true, Bool.and_eq_true,
      decide_eq_true_eq, ih]
    constructor
    · rintro (⟨rfl, h⟩ | ⟨q, rest, rfl, h⟩)
      · exact ⟨[], s', rfl, h⟩
      · exact ⟨c :: q, rest, rfl, h⟩
    · rintro ⟨q, rest, heq, h⟩
      cases q with
      | nil =>
        simp only [List.nil_append, List.cons.injEq] at heq
        exact Or.inl ⟨heq.1, heq.2 ▸ h⟩
      | cons a q' =>
        simp only [List.cons_append, List.cons.injEq] at heq
        exact Or.inr ⟨q', rest, heq.2, h⟩

theorem headerMatch_iff (s : List Char) :
    headerMatch s = true ↔
      ∃ pre rest, s = pre ++ rest ∧ AtLineStart pre ∧ headerAt rest = true := by
  unfold headerMatch
  simp only [Bool.or_eq_true, headerMatchAux_iff]
  constructor
  · rintro (h | ⟨q, rest, rfl, h⟩)
    · exact ⟨[], s, rfl, Or.inl rfl, h⟩
    · exact ⟨q ++ ['\n'], rest, by simp, Or.inr ⟨q, rfl⟩, h⟩
  · rintro ⟨pre, rest, rfl, hpre | ⟨q, rfl⟩, h⟩
    · subst hpre; exact Or.inl h
    · exact Or.inr ⟨q, rest, by simp, h⟩

/-- The per-record condition deciding a hit of the root-locator loop:
a PHP record whose content is readable and matches the header pattern. -/
def rootHit (contents : FPath → Option Text) (fi : FileInfo) : Bool :=
  if fi.file_type = FileType.Php then
    match contents fi.path with
    | some c => headerMatch c
    | none => false
  else false

theorem find_root_files_eq (contents : FPath → Option Text)
    (files : List FileInfo) :
    find_root_files contents files =
      match files.find? (rootHit contents) with
      | some fi => [fi.path]
      | none => [] := by
  induction files with
  | nil => rfl
  | cons fi rest ih =>
    by_cases hphp : fi.file_type = FileType.Php
    · cases hc : contents fi.path with
      | none =>
        have hhit : rootHit contents fi = false := by simp [rootHit, hphp, hc]
        rw [List.find?_cons_of_neg rest (by simp [hhit])]
        simp only [find_root_files, hphp, if_true, hc]
        exact ih
      | some c =>
        by_cases hm : headerMatch c = true
        · have hhit : rootHit contents fi = true := by simp [rootHit, hphp, hc, hm]
          rw [List.find?_cons_of_pos rest hhit]
          simp [find_root_files, hphp, hc, hm]
        · have hmf : headerMatch c = false := Bool.eq_false_iff.mpr hm
          have hhit : rootHit contents fi = false := by
            simp [rootHit, hphp, hc, hmf]
          rw [List.find?_cons_of_neg rest (by simp [hhit])]
          simp only [find_root_files, hphp, if_true, hc, hmf,
            Bool.false_eq_true, if_false]
          exact ih
    · have hhit : rootHit contents fi = false := by simp [rootHit, hphp]
      rw [List.find?_cons_of_neg rest (by simp [hhit])]
      simp only [find_root_files, hphp, if_false]
      exact ih

/-- Membership predicate of the `dead_files` output of the classifier loop. -/
def deadPred (roots : List FPath) (fi : FileInfo) : Bool :=
  !(decide (fi.path ∈ roots)) && fi.referenced_by.isEmpty &&
    fi.referenced_in_comments.isEmpty

/-- Membership predicate of the `commented_dead_files` output. -/
def cdeadPred (roots : List FPath) (fi : FileInfo) : Bool :=
  !(decide (fi.path ∈ roots)) && fi.referenced_by.isEmpty &&
    !fi.referenced_in_comments.isEmpty

theorem classifyList_eq (roots : List FPath) (files : List FileInfo) :
    classifyList roots files =
      (files.filter (deadPred roots), files.filter (cdeadPred roots)) := by
  induction files with
  | nil => rfl
  | cons fi rest ih =>
    simp only [classifyList, ih, List.filter_cons, deadPred, cdeadPred]
    by_cases h1 : fi.path ∈ roots
    · simp [h1]
    · by_cases h2 : fi.referenced_by.isEmpty = true
      · by_cases h3 : fi.referenced_in_comments.isEmpty = true
        · simp [h1, h2, h3]
        · simp [h1, h2, Bool.eq_false_iff.mpr h3]
      · simp [h1, Bool.eq_false_iff.mpr h2]

theorem fileinfo_eq_of_path_eq {files : List FileInfo}
    (h : (files.map (fun fi => fi.path)).Nodup)
    {fi gi : FileInfo} (hfi : fi ∈ files) (hgi : gi ∈ files)
    (hp : fi.path = gi.path) : fi = gi :=
  List.inj_on_of_nodup_map h hfi hgi hp

/-- Number of occurrences of a path in a list of paths. -/
def countOcc (p : FPath) (l : List FPath) : Nat :=
  (l.filter (fun q => decide (q = p))).length

theorem countOcc_eq_zero_of_not_mem (p : FPath) (l : List FPath)
    (h : p ∉ l) : countOcc p l = 0 := by
  induction l with
  | nil => rfl
  | cons a t ih =>
    have ha : ¬a = p := fun hap => h (hap ▸ List.mem_cons.mpr (Or.inl rfl))
    simp only [countOcc, List.filter_cons, decide_eq_true_eq, ha, if_false]
    exact ih (fun hm => h (List.mem_cons.mpr (Or.inr hm)))

theorem countOcc_le_one_of_nodup (p : FPath) (l : List FPath)
    (h : l.Nodup) : countOcc p l ≤ 1 := by
  induction l with
  | nil => exact Nat.zero_le 1
  | cons a t ih =>
    obtain ⟨hnm, hnd⟩ := List.nodup_cons.mp h
    by_cases hap : a = p
    · subst hap
      have ht : countOcc a t = 0 := countOcc_eq_zero_of_not_mem a t hnm
      simp only [countOcc, List.filter_cons, decide_eq_true_eq, if_true] at *
      simp [List.length_cons, ht]
    · simp only [countOcc, List.filter_cons, decide_eq_true_eq, hap, if_false]
      exact ih hnd

/-- Condition under which the inner loop of `find_references` appends the
referrer `p` to a target's `referenced_by` list, given the referrer's
code-only text. -/
def cleanHit (p : FPath) (clean : Text) (fi : FileInfo) : Bool :=
  match file_name fi.path with
  | none => false
  | some name => if fi.path = p then false else strContains clean name

/-- Condition under which the inner loop appends `p` to a target's
`referenced_in_comments` list. -/
def commHit (p : FPath) (clean comments : Text) (fi : FileInfo) : Bool :=
  match file_name fi.path with
  | none => false
  | some name =>
    if fi.path = p then false
    else if strContains clean name then false
    else strContains comments name

theorem updateRecord_path (p : FPath) (a b : Text) (fi : FileInfo) :
    (updateRecord p a b fi).path = fi.path := by
  unfold updateRecord
  cases hfn : file_name fi.path with
  | none => rfl
  | some name =>
    by_cases h1 : fi.path = p
    · simp [h1]
    · by_cases h2 : strContains a name = true
      · simp [h1, h2]
      · by_cases h3 : strContains b name = true <;>
          simp [h1, Bool.eq_false_iff.mpr h2, h3]

theorem updateRecord_rb (p : FPath) (a b : Text) (fi : FileInfo) :
    (updateRecord p a b fi).referenced_by =
      fi.referenced_by ++ (if cleanHit p a fi then [p] else []) := by
  unfold updateRecord cleanHit
  cases hfn : file_name fi.path with
  | none => simp
  | some name =>
    by_cases h1 : fi.path = p
    · simp [h1]
    · by_cases h2 : strContains a name = true
      · simp [h1, h2]
      · by_cases h3 : strContains b name = true <;>
          simp [h1, Bool.eq_false_iff.mpr h2, h3]

theorem updateRecord_ric (p : FPath) (a b : Text) (fi : FileInfo) :
    (updateRecord p a b fi).referenced_in_comments =
      fi.referenced_in_comments ++ (if commHit p a b fi then [p] else []) := by
  unfold updateRecord commHit
  cases hfn : file_name fi.path with
  | none => simp
  | some name =>
    by_cases h1 : fi.path = p
    · simp [h1]
    · by_cases h2 : strContains a name = true
      · simp [h1, h2]
      · by_cases h3 : strContains b name = true <;>
          simp [h1, Bool.eq_false_iff.mpr h2, h3]

/-- One referrer step of the scan as seen by a single record. -/
def scanStep (contents : FPath → Option Text) (fi : FileInfo) (p : FPath) :
    FileInfo :=
  updateRecord p (stripComments ((contents p).getD [])).1
    (stripComments ((contents p).getD [])).2 fi

/-- The accumulated effect of the whole scan on a single record. -/
def scanFile (contents : FPath → Option Text) (ps : List FPath)
    (fi : FileInfo) : FileInfo :=
  ps.foldl (scanStep contents) fi

/-- Whether referrer `p` yields a live (code-only) reference to record `fi`. -/
def refHit (contents : FPath → Option Text) (fi : FileInfo) (p : FPath) :
    Bool :=
  cleanHit p (codeOnly ((contents p).getD [])) fi

/-- Whether referrer `p` yields a comment-only reference to record `fi`. -/
def ricHit (contents : FPath → Option Text) (fi : FileInfo) (p : FPath) :
    Bool :=
  commHit p (codeOnly ((contents p).getD []))
    (commentOnly ((contents p).getD [])) fi

theorem cleanHit_congr (p : FPath) (a : Text) {fi gi : FileInfo}
    (h : fi.path = gi.path) : cleanHit p a fi = cleanHit p a gi := by
  unfold cleanHit; rw [h]

theorem commHit_congr (p : FPath) (a b : Text) {fi gi : FileInfo}
    (h : fi.path = gi.path) : commHit p a b fi = commHit p a b gi := by
  unfold commHit; rw [h]

theorem scanStep_path (contents : FPath → Option Text) (fi : FileInfo)
    (p : FPath) : (scanStep contents fi p).path = fi.path :=
  updateRecord_path p _ _ fi

theorem scanFile_path (contents : FPath → Option Text) (ps : List FPath)
    (fi : FileInfo) : (scanFile contents ps fi).path = fi.path := by
  induction ps generalizing fi with
  | nil => rfl
  | cons p ps ih =>
    show (scanFile contents ps (scanStep contents fi p)).path = fi.path
    rw [ih, scanStep_path]

theorem scanFile_rb (contents : FPath → Option Text) (ps : List FPath)
    (fi : FileInfo) :
    (scanFile contents ps fi).referenced_by =
      fi.referenced_by ++ ps.filter (refHit contents fi) := by
  induction ps generalizing fi with
  | nil => simp [scanFile]
  | cons p ps ih =>
    have hstep : (scanFile contents (p :: ps) fi) =
        scanFile contents ps (scanStep contents fi p) := rfl
    rw [hstep, ih]
    have hcongr : ps.filter (refHit contents (scanStep contents fi p)) =
        ps.filter (refHit contents fi) := by
      apply List.filter_congr
      intro q _
      unfold refHit
      exact cleanHit_congr q _ (scanStep_path contents fi p)
    rw [hcongr]
    have hrb : (scanStep contents fi p).referenced_by =
        fi.referenced_by ++ (if refHit contents fi p then [p] else []) :=
      updateRecord_rb p _ _ fi
    rw [hrb, List.filter_cons, List.append_assoc]
    by_cases hp : refHit contents fi p = true <;> simp [hp]

theorem scanFile_ric (contents : FPath → Option Text) (ps : List FPath)
    (fi : FileInfo) :
    (scanFile contents ps fi).referenced_in_comments =
      fi.referenced_in_comments ++ ps.filter (ricHit contents fi) := by
  induction ps generalizing fi with
  | nil => simp [scanFile]
  | cons p ps ih =>
    have hstep : (scanFile contents (p :: ps) fi) =
        scanFile contents ps (scanStep contents fi p) := rfl
    rw [hstep, ih]
    have hcongr : ps.filter (ricHit contents (scanStep contents fi p)) =
        ps.filter (ricHit contents fi) := by
      apply List.filter_congr
      intro q _
      unfold ricHit
      exact commHit_congr q _ _ (scanStep_path contents fi p)
    rw [hcongr]
    have hric : (scanStep contents fi p).referenced_in_comments =
        fi.referenced_in_comments ++ (if ricHit contents fi p then [p] else []) :=
      updateRecord_ric p _ _ fi
    rw [hric, List.filter_cons, List.append_assoc]
    by_cases hp : ricHit contents fi p = true <;> simp [hp]

theorem find_references_cons (contents : FPath → Option Text) (p : FPath)
    (ps : List FPath) (files : List FileInfo) :
    find_references contents (p :: ps) files =
      match contents p with
      | none => .error p
      | some content =>
        find_references contents ps (processPhp p content files) := rfl

theorem find_references_eq (contents : FPath → Option Text) (ps : List FPath)
    (files : List FileInfo) (h : ∀ p ∈ ps, contents p ≠ none) :
    find_references contents ps files =
      .ok (files.map (scanFile contents ps)) := by
  induction ps generalizing files with
  | nil =>
    show Except.ok files = _
    rw [show files.map (scanFile contents []) = files from
      List.map_id' files]
  | cons p ps ih =>
    cases hc : contents p with
    | none => exact absurd hc (h p (List.mem_cons.mpr (Or.inl rfl)))
    | some content =>
      rw [find_references_cons, hc]
      show find_references contents ps (processPhp p content files) = _
      rw [ih (processPhp p content files)
        (fun q hq => h q (List.mem_cons.mpr (Or.inr hq)))]
      unfold processPhp
      rw [List.map_map]
      congr 1
      apply List.map_congr_left
      intro fi _
      have hstep : scanStep contents fi p =
          updateRecord p (stripComments content).1 (stripComments content).2 fi := by
        unfold scanStep
        rw [hc]
        rfl
      show scanFile contents ps
        (updateRecord p (stripComments content).1 (stripComments content).2 fi) =
        scanFile contents (p :: ps) fi
      rw [show scanFile contents (p :: ps) fi =
        scanFile contents ps (scanStep contents fi p) from rfl, hstep]

theorem find_references_err (contents : FPath → Option Text) (ps : List FPath)
    (files : List FileInfo) (p : FPath)
    (h : ps.find? (fun q => (contents q).isNone) = some p) :
    find_references contents ps files = .error p := by
  induction ps generalizing files with
  | nil => simp [List.find?] at h
  | cons q qs ih =>
    cases hc : contents q with
    | none =>
      have hq : ((contents q).isNone : Bool) = true := by simp [hc]
      rw [List.find?_cons_of_pos qs hq] at h
      have hqp : q = p := Option.some.inj h
      rw [find_references_cons, hc]
      show Except.error q = Except.error p
      rw [hqp]
    | some c =>
      have hq : ¬ ((contents q).isNone : Bool) = true := by simp [hc]
      rw [List.find?_cons_of_neg qs hq] at h
      rw [find_references_cons, hc]
      show find_references contents qs (processPhp q c files) = _
      exact ih _ h

theorem cleanHit_some (p : FPath) (clean : Text) (fi : FileInfo)
    (name : List Char) (hname : file_name fi.path = some name) :
    cleanHit p clean fi =
      if fi.path = p then false else strContains clean name := by
  unfold cleanHit; rw [hname]

theorem cleanHit_none (p : FPath) (clean : Text) (fi : FileInfo)
    (hname : file_name fi.path = none) : cleanHit p clean fi = false := by
  unfold cleanHit; rw [hname]

theorem commHit_some (p : FPath) (clean comments : Text) (fi : FileInfo)
    (name : List Char) (hname : file_name fi.path = some name) :
    commHit p clean comments fi =
      if fi.path = p then false
      else if strContains clean name then false
      else strContains comments name := by
  unfold commHit; rw [hname]

theorem commHit_none (p : FPath) (clean comments : Text) (fi : FileInfo)
    (hname : file_name fi.path = none) :
    commHit p clean comments fi = false := by
  unfold commHit; rw [hname]

theorem refHit_ricHit_exclusive (contents : FPath → Option Text)
    (fi : FileInfo) (p : FPath) :
    ¬(refHit contents fi p = true ∧ ricHit contents fi p = true) := by
  rintro ⟨h1, h2⟩
  unfold refHit at h1
  unfold ricHit at h2
  cases hname : file_name fi.path with
  | none =>
    rw [cleanHit_none _ _ _ hname] at h1
    exact absurd h1 (by simp)
  | some name =>
    rw [cleanHit_some _ _ _ name hname] at h1
    rw [commHit_some _ _ _ _ name hname] at h2
    by_cases hpe : fi.path = p
    · rw [if_pos hpe] at h1; exact absurd h1 (by simp)
    · rw [if_neg hpe] at h1 h2
      rw [if_pos h1] at h2
      exact absurd h2 (by simp)

/-- Declarative reading of the header criterion as implemented: some line
start is followed by optional whitespace, a mandatory literal `*`, optional
whitespace and the literal `Plugin Name:`. -/
def HeaderSpecStar (s : List Char) : Prop :=
  ∃ pre w1 w2 post,
    s = pre ++ (w1 ++ '*' :: (w2 ++ (pluginChars ++ post))) ∧
    AtLineStart pre ∧ (∀ c ∈ w1, isWs c = true) ∧ (∀ c ∈ w2, isWs c = true)

/-- Declarative reading of claim C3's wording, under which the `*` is
optional: some line start is followed by optional whitespace, an optional
`*` with optional whitespace after it, and the literal `Plugin Name:`. -/
def HeaderSpecOptStar (s : List Char) : Prop :=
  ∃ pre w1 mid post,
    s = pre ++ (w1 ++ (mid ++ (pluginChars ++ post))) ∧
    AtLineStart pre ∧ (∀ c ∈ w1, isWs c = true) ∧
    (mid = [] ∨ ∃ w2, mid = '*' :: w2 ∧ (∀ c ∈ w2, isWs c = true))

/-! ## Claims -/

/-- Claim C1: for every catalog and root set, the classifier loop of
`find_dead_files` partitions the non-root files three ways — a record with
non-empty `referenced_by` lands in neither output list, a record with both
reference lists empty lands exactly in the dead list, a record with empty
`referenced_by` and non-empty `referenced_in_comments` lands exactly in the
comment-only-dead list, and a root record lands in neither list regardless
of its reference state. -/
theorem fdc_C1_classifier_partition (roots : List FPath)
    (files : List FileInfo) (fi : FileInfo) (hmem : fi ∈ files) :
    (fi.path ∈ roots →
      fi ∉ (classifyList roots files).1 ∧ fi ∉ (classifyList roots files).2) ∧
    (fi.path ∉ roots → fi.referenced_by ≠ [] →
      fi ∉ (classifyList roots files).1 ∧ fi ∉ (classifyList roots files).2) ∧
    (fi.path ∉ roots → fi.referenced_by = [] →
      fi.referenced_in_comments = [] →
      fi ∈ (classifyList roots files).1 ∧ fi ∉ (classifyList roots files).2) ∧
    (fi.path ∉ roots → fi.referenced_by = [] →
      fi.referenced_in_comments ≠ [] →
      fi ∈ (classifyList roots files).2 ∧ fi ∉ (classifyList roots files).1) := by
  rw [classifyList_eq]
  refine ⟨?_, ?_, ?_, ?_⟩
  · intro hr
    constructor
    · intro hd
      have h := (List.mem_filter.mp hd).2
      simp [deadPred, hr] at h
    · intro hd
      have h := (List.mem_filter.mp hd).2
      simp [cdeadPred, hr] at h
  · intro _ hrb
    constructor
    · intro hd
      have h := (List.mem_filter.mp hd).2
      simp [deadPred, List.isEmpty_iff, hrb] at h
    · intro hd
      have h := (List.mem_filter.mp hd).2
      simp [cdeadPred, List.isEmpty_iff, hrb] at h
  · intro hr hrb hric
    constructor
    · exact List.mem_filter.mpr
        ⟨hmem, by simp [deadPred, List.isEmpty_iff, hr, hrb, hric]⟩
    · intro hd
      have h := (List.mem_filter.mp hd).2
      simp [cdeadPred, List.isEmpty_iff, hric] at h
  · intro hr hrb hric
    constructor
    · exact List.mem_filter.mpr
        ⟨hmem, by simp [cdeadPred, List.isEmpty_iff, hr, hrb, hric]⟩
    · intro hd
      have h := (List.mem_filter.mp hd).2
      simp [deadPred, List.isEmpty_iff, hric] at h

theorem fdc_C1_witness :
    (⟨"u.php".toList, FileType.Php, [], []⟩ : FileInfo) ∈
      (classifyList [] [⟨"u.php".toList, FileType.Php, [], []⟩]).1 :=
  ((fdc_C1_classifier_partition [] [⟨"u.php".toList, FileType.Php, [], []⟩]
    ⟨"u.php".toList, FileType.Php, [], []⟩ (by decide)).2.2.1
    (by decide) rfl rfl).1

/-- Claim C3 counterexample: the content `"  Plugin Name: Demo"` satisfies the
claim's criterion (line start, leading whitespace, no `*`, then the literal
`Plugin Name:`), yet the root locator does not designate the PHP file holding
it: the regex `^\s*\*\s*Plugin Name:` requires a literal `*`. -/
theorem fdc_C3_counterexample :
    HeaderSpecOptStar "  Plugin Name: Demo".toList ∧
    find_root_files (fun _ => some "  Plugin Name: Demo".toList)
      [⟨"plugin.php".toList, FileType.Php, [], []⟩] = [] := by
  constructor
  · exact ⟨[], "  ".toList, [], " Demo".toList, by decide, Or.inl rfl,
      by decide, Or.inl rfl⟩
  · decide

/-- Claim C3 (amended): a content matches the root-file criterion if and only
if it contains a line that, at line start, ignoring leading whitespace, has a
mandatory literal `*`, optional whitespace, then the literal text
`Plugin Name:`; a line without the `*` does not match. -/
theorem fdc_C3_header_rule (s : List Char) :
    headerMatch s = true ↔ HeaderSpecStar s := by
  rw [headerMatch_iff]
  unfold HeaderSpecStar
  constructor
  · rintro ⟨pre, rest, rfl, hpre, hat⟩
    obtain ⟨w1, w2, post, rfl, h1, h2⟩ := (headerAt_iff rest).mp hat
    exact ⟨pre, w1, w2, post, rfl, hpre, h1, h2⟩
  · rintro ⟨pre, w1, w2, post, rfl, hpre, h1, h2⟩
    exact ⟨pre, _, rfl, hpre, (headerAt_iff _).mpr ⟨w1, w2, post, rfl, h1, h2⟩⟩

/-- Claim C4: the root locator returns at most one path; it returns exactly
the path of the first record (in scan order) that is a readable PHP file
matching the header pattern, and it returns nothing when no record
qualifies; a PHP record whose content cannot be read is skipped without
aborting the scan. -/
theorem fdc_C4_root_exclusive (contents : FPath → Option Text)
    (files : List FileInfo) :
    (find_root_files contents files).length ≤ 1 ∧
    (∀ fi, files.find? (rootHit contents) = some fi →
      find_root_files contents files = [fi.path]) ∧
    (files.find? (rootHit contents) = none →
      find_root_files contents files = []) ∧
    (∀ fi rest, fi.file_type = FileType.Php → contents fi.path = none →
      find_root_files contents (fi :: rest) = find_root_files contents rest) := by
  refine ⟨?_, ?_, ?_, ?_⟩
  · rw [find_root_files_eq]
    cases files.find? (rootHit contents) <;> simp
  · intro fi hf
    rw [find_root_files_eq, hf]
  · intro hf
    rw [find_root_files_eq, hf]
  · intro fi rest hphp hc
    simp [find_root_files, hphp, hc]

theorem fdc_C4_witness :
    find_root_files (fun _ => some "* Plugin Name: X".toList)
      [⟨"a.php".toList, FileType.Php, [], []⟩,
       ⟨"b.php".toList, FileType.Php, [], []⟩] = ["a.php".toList] :=
  (fdc_C4_root_exclusive (fun _ => some "* Plugin Name: X".toList)
    [⟨"a.php".toList, FileType.Php, [], []⟩,
     ⟨"b.php".toList, FileType.Php, [], []⟩]).2.1
    ⟨"a.php".toList, FileType.Php, [], []⟩ (by decide)

/-- Claim C7: every span captured by any of the three comment patterns over
the original, unmodified text appears verbatim as a substring of the derived
comment-only text; and the code-only and comment-only texts need not
reconstruct the original when concatenated. -/
theorem fdc_C7_comment_capture :
    (∀ s m : Text,
      (m ∈ matchesLine s ∨ m ∈ matchesBlock s ∨ m ∈ matchesHash s) →
      SubstringOf m (commentOnly s)) ∧
    (∃ s : Text, codeOnly s ++ commentOnly s ≠ s) := by
  constructor
  · intro s m hm
    apply substringOf_concatNl
    rcases hm with h | h | h <;> simp [List.mem_append, h]
  · exact ⟨"//x".toList, by decide⟩

theorem fdc_C7_witness :
    SubstringOf "//x".toList (commentOnly "//x".toList) :=
  fdc_C7_comment_capture.1 "//x".toList "//x".toList (Or.inl (by decide))

/-- Claim C8: the code-only text computed by the scan equals the result of
removing every block-comment match first, then every line-comment match from
the block-stripped text, then every hash-comment match from that result. -/
theorem fdc_C8_code_only_order (s : Text) :
    (stripComments s).1 = removeHash (removeLine (removeBlock s)) := rfl

/-- Claim C9: a failed content read during the reference scan surfaces the
error for the first unreadable referrer immediately, aborting the whole
pipeline, whereas a read failure during root location merely skips that
file. -/
theorem fdc_C9_scan_abort (contents : FPath → Option Text) (ps : List FPath)
    (files : List FileInfo) (p : FPath)
    (hfirst : ps.find? (fun q => (contents q).isNone) = some p) :
    find_references contents ps files = .error p ∧
    runPipeline contents files ps = .error p ∧
    (∀ fi rest, contents fi.path = none →
      find_root_files contents (fi :: rest) = find_root_files contents rest) := by
  have h1 := find_references_err contents ps files p hfirst
  refine ⟨h1, ?_, ?_⟩
  · unfold runPipeline
    rw [h1]
  · intro fi rest hc
    by_cases hphp : fi.file_type = FileType.Php <;>
      simp [find_root_files, hphp, hc]

theorem fdc_C9_witness :
    find_references (fun _ => (none : Option Text)) ["a.php".toList] [] =
      Except.error "a.php".toList :=
  (fdc_C9_scan_abort (fun _ => (none : Option Text)) ["a.php".toList] []
    "a.php".toList (by decide)).1

/-- Claim C5: when the scan completes, a referrer `p` ends up in a fresh
record's `referenced_by` exactly when `p` is a scanned PHP file other than
the record itself whose code-only text contains the record's base filename
as a literal substring, and in `referenced_in_comments` exactly when the
code-only text does not contain it but the comment-only text does;
a record never references itself (exclusion is exact path equality). -/
theorem fdc_C5_reference_semantics (contents : FPath → Option Text)
    (ps : List FPath) (files out : List FileInfo)
    (hread : ∀ p ∈ ps, contents p ≠ none)
    (hrun : find_references contents ps files = Except.ok out) :
    out = files.map (scanFile contents ps) ∧
    ∀ fi ∈ files, fi.referenced_by = [] → fi.referenced_in_comments = [] →
      ∀ name, file_name fi.path = some name →
        (∀ p : FPath, p ∈ (scanFile contents ps fi).referenced_by ↔
          (p ∈ ps ∧ fi.path ≠ p ∧
            strContains (codeOnly ((contents p).getD [])) name = true)) ∧
        (∀ p : FPath, p ∈ (scanFile contents ps fi).referenced_in_comments ↔
          (p ∈ ps ∧ fi.path ≠ p ∧
            strContains (codeOnly ((contents p).getD [])) name = false ∧
            strContains (commentOnly ((contents p).getD [])) name = true)) := by
  have hout : out = files.map (scanFile contents ps) := by
    have h := find_references_eq contents ps files hread
    rw [h] at hrun
    exact (Except.ok.inj hrun).symm
  refine ⟨hout, ?_⟩
  intro fi _ hrb hric name hname
  constructor
  · intro p
    rw [scanFile_rb, hrb]
    simp only [List.nil_append, List.mem_filter]
    unfold refHit
    rw [cleanHit_some p _ fi name hname]
    by_cases hpe : fi.path = p
    · simp [hpe]
    · simp [hpe]
  · intro p
    rw [scanFile_ric, hric]
    simp only [List.nil_append, List.mem_filter]
    unfold ricHit
    rw [commHit_some p _ _ fi name hname]
    by_cases hpe : fi.path = p
    · simp [hpe]
    · by_cases hcc : strContains (codeOnly ((contents p).getD [])) name = true
      · simp [hpe, hcc]
      · simp [hpe, hcc, Bool.eq_false_iff.mpr hcc]

theorem fdc_C5_witness :
    "a.php".toList ∈ (scanFile (fun _ => some "include u.php;".toList)
      ["a.php".toList]
      ⟨"u.php".toList, FileType.Php, [], []⟩).referenced_by :=
  (((fdc_C5_reference_semantics (fun _ => some "include u.php;".toList)
    ["a.php".toList] [⟨"u.php".toList, FileType.Php, [], []⟩]
    [⟨"u.php".toList, FileType.Php, ["a.php".toList], []⟩]
    (by decide) rfl).2
    ⟨"u.php".toList, FileType.Php, [], []⟩ (by decide) rfl rfl
    "u.php".toList (by decide)).1 "a.php".toList).mpr
    ⟨by decide, by decide, by decide⟩

/-- Claim C6: a given referrer contributes to at most one of the two
reference lists of a given target: after a completed scan of a fresh
catalog, no path lies in both `referenced_by` and `referenced_in_comments`
of the same record. -/
theorem fdc_C6_disjoint_lists (contents : FPath → Option Text)
    (ps : List FPath) (files out : List FileInfo)
    (hread : ∀ p ∈ ps, contents p ≠ none)
    (hrun : find_references contents ps files = Except.ok out)
    (hfresh : ∀ fi ∈ files,
      fi.referenced_by = [] ∧ fi.referenced_in_comments = []) :
    ∀ fi' ∈ out, ∀ p : FPath,
      ¬(p ∈ fi'.referenced_by ∧ p ∈ fi'.referenced_in_comments) := by
  have hout : out = files.map (scanFile contents ps) := by
    have h := find_references_eq contents ps files hread
    rw [h] at hrun
    exact (Except.ok.inj hrun).symm
  subst hout
  rintro fi' hfi' p ⟨h1, h2⟩
  obtain ⟨fi, hmem, rfl⟩ := List.mem_map.mp hfi'
  obtain ⟨hrb, hric⟩ := hfresh fi hmem
  rw [scanFile_rb, hrb] at h1
  rw [scanFile_ric, hric] at h2
  simp only [List.nil_append, List.mem_filter] at h1 h2
  exact refHit_ricHit_exclusive contents fi p ⟨h1.2, h2.2⟩

theorem fdc_C6_witness :
    ¬("a.php".toList ∈
        (⟨"u.php".toList, FileType.Php, ["a.php".toList], []⟩ :
          FileInfo).referenced_by ∧
      "a.php".toList ∈
        (⟨"u.php".toList, FileType.Php, ["a.php".toList], []⟩ :
          FileInfo).referenced_in_comments) :=
  fdc_C6_disjoint_lists (fun _ => some "include u.php;".toList)
    ["a.php".toList] [⟨"u.php".toList, FileType.Php, [], []⟩]
    [⟨"u.php".toList, FileType.Php, ["a.php".toList], []⟩]
    (by decide) rfl
    (by decide)
    ⟨"u.php".toList, FileType.Php, ["a.php".toList], []⟩ (by decide)
    "a.php".toList

/-- Claim C10: after a completed scan of a fresh catalog driven by a
duplicate-free referrer list, each referrer path occurs at most once in each
of a record's two reference lists. -/
theorem fdc_C10_no_duplicate_refs (contents : FPath → Option Text)
    (ps : List FPath) (files out : List FileInfo)
    (hread : ∀ p ∈ ps, contents p ≠ none)
    (hrun : find_references contents ps files = Except.ok out)
    (hnd : ps.Nodup)
    (hfresh : ∀ fi ∈ files,
      fi.referenced_by = [] ∧ fi.referenced_in_comments = []) :
    ∀ fi' ∈ out, ∀ p : FPath,
      countOcc p fi'.referenced_by ≤ 1 ∧
      countOcc p fi'.referenced_in_comments ≤ 1 := by
  have hout : out = files.map (scanFile contents ps) := by
    have h := find_references_eq contents ps files hread
    rw [h] at hrun
    exact (Except.ok.inj hrun).symm
  subst hout
  intro fi' hfi' p
  obtain ⟨fi, hmem, rfl⟩ := List.mem_map.mp hfi'
  obtain ⟨hrb, hric⟩ := hfresh fi hmem
  constructor
  · rw [scanFile_rb, hrb]
    simp only [List.nil_append]
    exact countOcc_le_one_of_nodup p _ (List.Nodup.filter _ hnd)
  · rw [scanFile_ric, hric]
    simp only [List.nil_append]
    exact countOcc_le_one_of_nodup p _ (List.Nodup.filter _ hnd)

theorem fdc_C10_witness :
    countOcc "a.php".toList
      (⟨"u.php".toList, FileType.Php, ["a.php".toList], []⟩ :
        FileInfo).referenced_by ≤ 1 :=
  ((fdc_C10_no_duplicate_refs (fun _ => some "include u.php;".toList)
    ["a.php".toList] [⟨"u.php".toList, FileType.Php, [], []⟩]
    [⟨"u.php".toList, FileType.Php, ["a.php".toList], []⟩]
    (by decide) rfl (by decide) (by decide)
    ⟨"u.php".toList, FileType.Php, ["a.php".toList], []⟩ (by decide)
    "a.php".toList).1)

theorem deletePhase_true_eq (contents : FPath → Option Text)
    (files : List FileInfo) :
    deletePhase true contents files =
      (find_dead_files contents files).1.map (fun fi => fi.path) := by
  unfold deletePhase delete_files
  by_cases hgate : (!(find_dead_files contents files).1.isEmpty ||
      !(find_dead_files contents files).2.isEmpty) = true
  · simp [hgate]
  · simp only [Bool.true_and, hgate, Bool.false_eq_true, if_false]
    have hd : (find_dead_files contents files).1 = [] := by
      rcases Bool.or_eq_false_iff.mp (Bool.eq_false_iff.mpr hgate) with ⟨h, -⟩
      exact List.isEmpty_iff.mp (by simpa using h)
    rw [hd]
    rfl

/-- Claim C2: with `--delete` set, the paths passed to file removal are
exactly the paths of the records classified Dead — every dead record's path
is attempted, and (for a catalog with pairwise distinct paths) no
comment-only-dead record, no alive record and no root record is ever
passed to removal. -/
theorem fdc_C2_delete_exact (contents : FPath → Option Text)
    (files : List FileInfo)
    (hnd : (files.map (fun fi => fi.path)).Nodup) :
    (∀ p : FPath, p ∈ deletePhase true contents files ↔
      ∃ fi, fi ∈ files ∧ fi.path = p ∧
        fi.path ∉ find_root_files contents files ∧
        fi.referenced_by = [] ∧ fi.referenced_in_comments = []) ∧
    (∀ fi ∈ (find_dead_files contents files).1,
      fi.path ∈ deletePhase true contents files) ∧
    (∀ fi ∈ (find_dead_files contents files).2,
      fi.path ∉ deletePhase true contents files) ∧
    (∀ fi ∈ files, fi.referenced_by ≠ [] →
      fi.path ∉ deletePhase true contents files) ∧
    (∀ fi ∈ files, fi.path ∈ find_root_files contents files →
      fi.path ∉ deletePhase true contents files) := by
  have hfd : find_dead_files contents files =
      (files.filter (deadPred (find_root_files contents files)),
       files.filter (cdeadPred (find_root_files contents files))) :=
    classifyList_eq (find_root_files contents files) files
  have hiff : ∀ p : FPath, p ∈ deletePhase true contents files ↔
      ∃ fi, fi ∈ files ∧ fi.path = p ∧
        fi.path ∉ find_root_files contents files ∧
        fi.referenced_by = [] ∧ fi.referenced_in_comments = [] := by
    intro p
    rw [deletePhase_true_eq, hfd]
    constructor
    · intro hp
      obtain ⟨fi, hfi, rfl⟩ := List.mem_map.mp hp
      obtain ⟨hmem, hpred⟩ := List.mem_filter.mp hfi
      simp only [deadPred, Bool.and_eq_true, Bool.not_eq_eq_eq_not,
        Bool.not_true, decide_eq_false_iff_not, List.isEmpty_iff] at hpred
      exact ⟨fi, hmem, rfl, hpred.1.1, hpred.1.2, hpred.2⟩
    · rintro ⟨fi, hmem, rfl, hnr, hrb, hric⟩
      refine List.mem_map.mpr ⟨fi, List.mem_filter.mpr ⟨hmem, ?_⟩, rfl⟩
      simp [deadPred, List.isEmpty_iff, hnr, hrb, hric]
  refine ⟨hiff, ?_, ?_, ?_, ?_⟩
  · intro fi hfi
    rw [deletePhase_true_eq]
    exact List.mem_map.mpr ⟨fi, hfi, rfl⟩
  · intro fi hfi hp
    rw [hfd] at hfi
    obtain ⟨hmem, hpred⟩ := List.mem_filter.mp hfi
    simp only [cdeadPred, Bool.and_eq_true, Bool.not_eq_eq_eq_not,
      Bool.not_true, decide_eq_false_iff_not, List.isEmpty_iff,
      Bool.not_eq_true', List.isEmpty_eq_false] at hpred
    obtain ⟨gi, hgmem, hgp, -, -, hgric⟩ := (hiff fi.path).mp hp
    have : gi = fi := fileinfo_eq_of_path_eq hnd hgmem hmem hgp
    subst this
    exact hpred.2 hgric
  · intro fi hmem hrb hp
    obtain ⟨gi, hgmem, hgp, -, hgrb, -⟩ := (hiff fi.path).mp hp
    have : gi = fi := fileinfo_eq_of_path_eq hnd hgmem hmem hgp
    subst this
    exact hrb hgrb
  · intro fi hmem hroot hp
    obtain ⟨gi, hgmem, hgp, hgnr, -, -⟩ := (hiff fi.path).mp hp
    exact hgnr (hgp ▸ hroot)

theorem fdc_C2_witness :
    "dead.js".toList ∈ deletePhase true
      (fun _ => some "* Plugin Name: X".toList)
      [⟨"root.php".toList, FileType.Php, [], []⟩,
       ⟨"dead.js".toList, FileType.JavaScript, [], []⟩,
       ⟨"cd.css".toList, FileType.Css, [], ["root.php".toList]⟩] :=
  (fdc_C2_delete_exact (fun _ => some "* Plugin Name: X".toList)
    [⟨"root.php".toList, FileType.Php, [], []⟩,
     ⟨"dead.js".toList, FileType.JavaScript, [], []⟩,
     ⟨"cd.css".toList, FileType.Css, [], ["root.php".toList]⟩]
    (by decide)).2.1
    ⟨"dead.js".toList, FileType.JavaScript, [], []⟩ (by decide)

end Fdc
